import Mathlib

/-!
# Verification of the backbase backup pipeline

Shallow embedding of the backbase tool (filesystem.ts, base64.ts,
error-handling.ts, cli.ts). A snapshot is a list of (filepath, base64) pairs;
the serialization views, the base64 coder, the glob/filter/read pipeline and
its error propagation are translated below, and the stated properties of the
specification are settled against them.
-/

/-! ## Data model: FileEntry and FileSystem (filesystem.ts) -/

/-- FileEntry: a (filepath, base64 content) pair, as in
`type FileEntry = [Filepath, Base64String]`. -/
abbrev FileEntry := String × String

/-- Escape a path character for CSV: source line
`entry[0].replace(/,/g, "\\,")` replaces every comma with backslash-comma.
List-of-chars form of the regexp replacement. -/
def escapeList : List Char → List Char
  | [] => []
  | ch :: rest => if ch = ',' then '\\' :: ',' :: escapeList rest else ch :: escapeList rest

/-- String wrapper for `escapeList`, the CSV path escaping of the source. -/
def escapeStr (s : String) : String := String.mk (escapeList s.data)

/-- JS `Array.prototype.join(sep)`: concatenation with a separator between
elements, empty string for the empty array. -/
def joinSep (sep : String) : List String → String
  | [] => ""
  | l :: rest => rest.foldl (fun acc x => acc ++ sep ++ x) l

/-- Concatenation of a list of strings (used to state the joined-lines shape). -/
def strConcat (l : List String) : String := l.foldr (· ++ ·) ""

/-- asCSV with its store effect.  The source maps
`entry[0] = entry[0].replace(/,/g, "\\,"); return entry.join(",")` over the
entry array: the assignment writes the escaped path back into the shared
entry tuple, so the function both produces the CSV text and leaves the
entry list with escaped paths.  The pair returned here is
(produced CSV text, the entry list as it is after the call). -/
def asCSVrun (files : List FileEntry) : String × List FileEntry :=
  let escaped := files.map (fun e => (escapeStr e.1, e.2))
  (joinSep "\n" ("filepath,content" :: escaped.map (fun e => e.1 ++ "," ++ e.2)),
   escaped)

/-- The CSV text produced by one `asCSV()` call on the given entries. -/
def asCSV (files : List FileEntry) : String := (asCSVrun files).1

/-- asTSV: `["filepath\tcontent", ...files.map(entry => entry.join("\t"))].join("\n")`;
no escaping and no store effect. -/
def asTSV (files : List FileEntry) : String :=
  joinSep "\n" ("filepath\tcontent" :: files.map (fun e => e.1 ++ "\t" ++ e.2))

/-- JSON string escaping of one character, as in `JSON.stringify`. -/
def jsonEscapeChar (c : Char) : List Char :=
  if c = '"' then ['\\', '"']
  else if c = '\\' then ['\\', '\\']
  else if c = '\n' then ['\\', 'n']
  else if c = '\t' then ['\\', 't']
  else if c = '\r' then ['\\', 'r']
  else [c]

/-- A JSON string literal for `s` (quote, escape, quote). -/
def jsonString (s : String) : String :=
  "\"" ++ String.mk (s.data.flatMap jsonEscapeChar) ++ "\""

/-- `JSON.stringify` of one FileEntry tuple: a two-element JSON array. -/
def jsonOfEntry (e : FileEntry) : String :=
  "[" ++ jsonString e.1 ++ "," ++ jsonString e.2 ++ "]"

/-- asJSON of the source: `JSON.stringify(files)` where `files` is the entry
array, hence a JSON ARRAY of two-element arrays. -/
def asJSON (files : List FileEntry) : String :=
  "[" ++ joinSep "," (files.map jsonOfEntry) ++ "]"

/-- `JSON.stringify` of a JS object given as an insertion-ordered
association list: a JSON object text. -/
def jsonOfMap (m : List FileEntry) : String :=
  "\x7b" ++ joinSep "," (m.map (fun e => jsonString e.1 ++ ":" ++ jsonString e.2)) ++ "\x7d"

/-- One step of the `toMap` reduce: `reduction[filepath] = content` on a JS
object modelled as an insertion-ordered association list.  An existing key
keeps its position and gets the new value; a new key is appended. -/
def mapInsert (m : List FileEntry) (k v : String) : List FileEntry :=
  if m.any (fun e => e.1 == k) then
    m.map (fun e => if e.1 == k then (k, v) else e)
  else
    m ++ [(k, v)]

/-- toMap: `files.reduce((reduction, [filepath, content]) => { reduction[filepath] = content; return reduction }, {})`. -/
def toMap (files : List FileEntry) : List FileEntry :=
  files.foldl (fun m e => mapInsert m e.1 e.2) []

/-- The value the `toMap` object holds at key `p`: the content of the last
entry of `files` whose path is `p`, if any. -/
def lastContent (p : String) (files : List FileEntry) : Option String :=
  files.foldl (fun acc e => if e.1 = p then some e.2 else acc) none

/-! ## Base64 coder (base64.ts)

`encode` reads a file with `readFile(filepath, "base64")`, i.e. standard
base64 with padding of the raw bytes; `decode` is
`Buffer.from(base64, "base64")`, the forgiving Node decoder that skips
characters outside the base64 alphabet (padding carries no value) and drops
a trailing lone sextet.  Bytes are naturals below 256, sextets naturals
below 64. -/

/-- The character for a sextet value in the standard base64 alphabet. -/
def sextetChar (v : Nat) : Char :=
  Char.ofNat
    (if v < 26 then v + 65
     else if v < 52 then v - 26 + 97
     else if v < 62 then v - 52 + 48
     else if v = 62 then 43
     else 47)

/-- The sextet value of a character in the standard base64 alphabet, `none`
for every other character (including the padding character). -/
def charVal (c : Char) : Option Nat :=
  if 65 ≤ c.toNat ∧ c.toNat ≤ 90 then some (c.toNat - 65)
  else if 97 ≤ c.toNat ∧ c.toNat ≤ 122 then some (c.toNat - 97 + 26)
  else if 48 ≤ c.toNat ∧ c.toNat ≤ 57 then some (c.toNat - 48 + 52)
  else if c.toNat = 43 then some 62
  else if c.toNat = 47 then some 63
  else none

/-- Standard padded base64 of a byte list, three bytes to four characters. -/
def encodeBytes : List Nat → List Char
  | [] => []
  | [a] => [sextetChar (a / 4), sextetChar (a % 4 * 16), '=', '=']
  | [a, b] => [sextetChar (a / 4), sextetChar (a % 4 * 16 + b / 16),
               sextetChar (b % 16 * 4), '=']
  | a :: b :: c :: rest =>
      sextetChar (a / 4) :: sextetChar (a % 4 * 16 + b / 16) ::
      sextetChar (b % 16 * 4 + c / 64) :: sextetChar (c % 64) ::
      encodeBytes rest

/-- Reassemble bytes from sextets, four sextets to three bytes; a tail of
three sextets gives two bytes, of two gives one, a lone sextet none. -/
def decodeQuads : List Nat → List Nat
  | s1 :: s2 :: s3 :: s4 :: rest =>
      (s1 * 4 + s2 / 16) :: (s2 % 16 * 16 + s3 / 4) :: (s3 % 4 * 64 + s4) ::
      decodeQuads rest
  | [s1, s2, s3] => [s1 * 4 + s2 / 16, s2 % 16 * 16 + s3 / 4]
  | [s1, s2] => [s1 * 4 + s2 / 16]
  | _ => []

/-- Decode a character list: keep the alphabet characters' sextet values
(everything else, padding included, is skipped) and reassemble bytes. -/
def decodeChars (s : List Char) : List Nat :=
  decodeQuads (s.filterMap charVal)

/-- The base64 transform of `Base64.encode` applied directly to bytes
(the spec's `encode_inline`). -/
def Base64.encodeInline (B : List Nat) : String := String.mk (encodeBytes B)

/-- `Base64.decode`: `Buffer.from(base64, "base64")` as a byte list. -/
def Base64.decode (s : String) : List Nat := decodeChars s.data

/-! ## Glob, filters and error propagation (filesystem.ts, error-handling.ts) -/

/-- A JS Error value, reduced to its message. -/
structure JsError where
  message : String
deriving DecidableEq

/-- A JS value as far as `wrapError` inspects it. -/
inductive JsValue where
  | undef
  | str (s : String)
  | err (e : JsError)
deriving DecidableEq

/-- JS string conversion of a value, as `Error(value)` applies it. -/
def jsString : JsValue → String
  | .undef => "undefined"
  | .str s => s
  | .err e => "Error: " ++ e.message

/-- `wrapError(value)`: the value itself when it already is an Error,
otherwise `Error(value)`. -/
def wrapError (v : JsValue) : JsError :=
  match v with
  | .err e => e
  | v => ⟨jsString v⟩

/-- The error thrown by the glob rejection handler.  The source line is
`throw wrapError(fileGlob)` inside `.catch(err => ...)` on the initializer
of `let fileGlob`; when the handler runs, `fileGlob` is still uninitialized,
so evaluating it throws a ReferenceError.  Either way the thrown error is a
constant of the program text and does not involve `err`. -/
def globHandlerThrown : JsError :=
  ⟨"ReferenceError: Cannot access fileGlob before initialization"⟩

/-- The await of `glob(globPattern).catch(err => { ...; throw wrapError(fileGlob) })`:
a fulfilled glob passes through, a rejected one is replaced by what the
handler throws. -/
def globAwait (globResult : Except JsError (List String)) :
    Except JsError (List String) :=
  match globResult with
  | .ok v => .ok v
  | .error _ => .error globHandlerThrown

/-- The error `Base64Filesystem` propagates when glob expansion fails with
`cause`: the handler's thrown error reaches the outer
`catch (err) { ...; throw wrapError(err) }`. -/
def globFailurePropagated (cause : JsError) : JsError :=
  match globAwait (.error cause) with
  | .error e => wrapError (.err e)
  | .ok _ => cause

/-- The filter stage:
`filters.reduce((values, filter) => values.filter(filter), fileGlob)`. -/
def applyFilters (filters : List (String → Bool)) (paths : List String) :
    List String :=
  filters.foldl (fun values f => values.filter f) paths

/-! ## Concurrent reads and Promise.all (filesystem.ts)

`filtered.map(async filepath => ...)` starts one task per path, in path
order; `Promise.all` resolves with the results in TASK order whatever order
the tasks settle in.  A schedule is the list of task indices in settlement
order; running it yields (index, result) pairs in settlement order, and the
aggregate result slots each result back at its task index. -/

/-- The per-path read/encode tasks, one `(filepath, contents)` result each,
given the content the filesystem returns for each path. -/
def encodeTasks (paths : List String) (read : String → String) :
    List (String × String) :=
  paths.map (fun p => (p, read p))

/-- Run the tasks in settlement order `sched`: the (task index, task result)
pairs as they settle. -/
def runSchedule (tasks : List (String × String)) (sched : List Nat) :
    List (Nat × (String × String)) :=
  sched.filterMap (fun i => (tasks.get? i).map (fun t => (i, t)))

/-- `Promise.all` assembly: slot each settled result back at its task index;
position j of the aggregate holds the result of task j. -/
def promiseAll (n : Nat) (completions : List (Nat × (String × String))) :
    List (Option (String × String)) :=
  (List.range n).map (fun j => (completions.find? (fun c => c.1 == j)).map (fun c => c.2))

/-- The snapshot `Base64Filesystem` builds when the reads settle in order
`sched`: the `Promise.all` aggregate of the per-path tasks. -/
def buildSnapshot (paths : List String) (read : String → String)
    (sched : List Nat) : List (Option (String × String)) :=
  promiseAll (encodeTasks paths read).length
    (runSchedule (encodeTasks paths read) sched)

/-! ## CSV decoding (modelled from the spec)

Modelled from the spec: the repository has no CSV reader; the spec's
testable property \"decoding the CSV (splitting unescaped commas) must
recover the original path\" fixes the decoding procedure: the path field of
a row is everything before the first comma not preceded by a backslash, and
unescaping replaces each backslash-comma with a comma. -/

/-- The path field of a CSV row: characters up to the first comma that is
not preceded by a backslash; a backslash-comma pair stays in the field. -/
def firstField : List Char → List Char
  | [] => []
  | [ch] => if ch = ',' then [] else [ch]
  | a :: b :: rest =>
      if a = '\\' ∧ b = ',' then '\\' :: ',' :: firstField rest
      else if a = ',' then []
      else a :: firstField (b :: rest)

/-- CSV path unescaping: each backslash-comma becomes a comma (leftmost,
non-overlapping, as a global regexp replacement). -/
def unescapeP : List Char → List Char
  | [] => []
  | [ch] => [ch]
  | a :: b :: rest =>
      if a = '\\' ∧ b = ',' then ',' :: unescapeP rest
      else a :: unescapeP (b :: rest)

/-- The CSV body row the source writes for an entry: escaped path, comma,
content. -/
def csvRow (e : FileEntry) : String := escapeStr e.1 ++ "," ++ e.2

/-- Decode the path field of a CSV row back to a path string. -/
def decodeCsvPath (row : String) : String :=
  String.mk (unescapeP (firstField row.data))

/-! ## Helper lemmas -/

theorem joinSep_foldl (sep : String) (rows : List String) :
    ∀ a : String, rows.foldl (fun acc x => acc ++ sep ++ x) a =
      a ++ strConcat (rows.map (fun r => sep ++ r)) := by
  induction rows with
  | nil => intro a; simp [strConcat, String.append_empty]
  | cons r rest ih =>
    intro a
    simp only [List.foldl_cons, List.map_cons, strConcat, List.foldr_cons]
    rw [ih (a ++ sep ++ r)]
    simp [strConcat, String.append_assoc]

theorem joinSep_cons (sep h : String) (rows : List String) :
    joinSep sep (h :: rows) = h ++ strConcat (rows.map (fun r => sep ++ r)) := by
  simp only [joinSep]
  exact joinSep_foldl sep rows h

theorem escapeList_flatMap (l : List Char) :
    escapeList l = l.flatMap (fun c => if c = ',' then ['\\', ','] else [c]) := by
  induction l with
  | nil => rfl
  | cons c rest ih =>
    by_cases hc : c = ',' <;> simp [escapeList, hc, ih]

theorem escapeList_eq_nil_iff (l : List Char) : escapeList l = [] ↔ l = [] := by
  cases l with
  | nil => simp [escapeList]
  | cons c rest => by_cases hc : c = ',' <;> simp [escapeList, hc]

theorem escapeList_head_ne_comma (l : List Char) (t : List Char) :
    escapeList l ≠ ',' :: t := by
  cases l with
  | nil => simp [escapeList]
  | cons c rest => by_cases hc : c = ',' <;> simp [escapeList, hc]

theorem escapeList_comma (rest : List Char) :
    escapeList (',' :: rest) = '\\' :: ',' :: escapeList rest := by
  simp [escapeList]

theorem escapeList_other (c : Char) (rest : List Char) (h : c ≠ ',') :
    escapeList (c :: rest) = c :: escapeList rest := by
  simp [escapeList, h]

theorem unescapeP_bs_comma (rest : List Char) :
    unescapeP ('\\' :: ',' :: rest) = ',' :: unescapeP rest := by
  simp [unescapeP]

theorem unescapeP_two (a b : Char) (rest : List Char) (h : ¬(a = '\\' ∧ b = ',')) :
    unescapeP (a :: b :: rest) = a :: unescapeP (b :: rest) := by
  simp [unescapeP, h]

theorem firstField_bs_comma (rest : List Char) :
    firstField ('\\' :: ',' :: rest) = '\\' :: ',' :: firstField rest := by
  simp [firstField]

theorem firstField_two (a b : Char) (rest : List Char)
    (h1 : ¬(a = '\\' ∧ b = ',')) (h2 : a ≠ ',') :
    firstField (a :: b :: rest) = a :: firstField (b :: rest) := by
  simp [firstField, h1, h2]

theorem firstField_comma (c : List Char) : firstField (',' :: c) = [] := by
  cases c with
  | nil => simp [firstField]
  | cons b t => simp [firstField]

theorem unescape_escape (l : List Char) : unescapeP (escapeList l) = l := by
  induction l with
  | nil => rfl
  | cons c rest ih =>
    by_cases hc : c = ','
    · subst hc
      rw [escapeList_comma, unescapeP_bs_comma, ih]
    · cases hE : escapeList rest with
      | nil =>
        have : rest = [] := (escapeList_eq_nil_iff rest).mp hE
        subst this
        simp [escapeList, hc, unescapeP]
      | cons b t =>
        have hb : b ≠ ',' := fun hb => escapeList_head_ne_comma rest t (hb ▸ hE)
        rw [escapeList_other c rest hc, hE, unescapeP_two c b t (by simp [hb]),
            ← hE, ih]

theorem any_beq_keys (m : List FileEntry) (k : String) :
    m.any (fun e => e.1 == k) = true ↔ k ∈ m.map Prod.fst := by
  rw [List.any_eq_true]
  constructor
  · rintro ⟨e, he, heq⟩
    exact List.mem_map.mpr ⟨e, he, beq_iff_eq.mp heq⟩
  · intro hmem
    rcases List.mem_map.mp hmem with ⟨e, he, hfe⟩
    exact ⟨e, he, by simp [hfe]⟩

theorem map_fst_mapInsert (m : List FileEntry) (k v : String) :
    (mapInsert m k v).map Prod.fst =
      if m.any (fun e => e.1 == k) then m.map Prod.fst
      else m.map Prod.fst ++ [k] := by
  unfold mapInsert
  split
  · rw [List.map_map]
    refine List.map_congr_left ?_
    intro e _
    by_cases hek : e.1 = k <;> simp [Function.comp, hek]
  · simp

theorem nodup_keys_mapInsert (m : List FileEntry) (k v : String)
    (h : (m.map Prod.fst).Nodup) : ((mapInsert m k v).map Prod.fst).Nodup := by
  rw [map_fst_mapInsert]
  split
  · exact h
  case isFalse hany =>
    have hk : k ∉ m.map Prod.fst := fun hmem =>
      hany ((any_beq_keys m k).mpr hmem)
    rw [List.nodup_append]
    refine ⟨h, List.nodup_singleton k, ?_⟩
    intro a ha hak
    rw [List.mem_singleton] at hak
    exact hk (hak ▸ ha)

theorem mem_keys_mapInsert (m : List FileEntry) (k v p : String) :
    p ∈ (mapInsert m k v).map Prod.fst ↔ p = k ∨ p ∈ m.map Prod.fst := by
  rw [map_fst_mapInsert]
  split
  case isTrue hany =>
    have hk : k ∈ m.map Prod.fst := (any_beq_keys m k).mp hany
    constructor
    · exact fun hin => Or.inr hin
    · rintro (rfl | hin)
      · exact hk
      · exact hin
  case isFalse hany =>
    simp [List.mem_append, or_comm]

theorem lookup_cons_if (p a b : String) (l : List FileEntry) :
    List.lookup p ((a, b) :: l) = if p = a then some b else List.lookup p l := by
  by_cases h : p = a
  · simp [List.lookup_cons, h]
  · simp [List.lookup_cons, beq_eq_false_iff_ne.mpr h, h]

theorem update_cons (k v a b : String) (m : List FileEntry) :
    ((a, b) :: m).map (fun e => if e.1 == k then (k, v) else e) =
      (if a = k then (k, v) else (a, b)) ::
        m.map (fun e => if e.1 == k then (k, v) else e) := by
  by_cases h : a = k <;> simp [h]

theorem lookup_update_ne (k v p : String) (hpk : p ≠ k) :
    ∀ m : List FileEntry,
      List.lookup p (m.map (fun e => if e.1 == k then (k, v) else e)) =
        List.lookup p m := by
  intro m
  induction m with
  | nil => rfl
  | cons e m' ih =>
    obtain ⟨a, b⟩ := e
    rw [update_cons]
    by_cases hak : a = k
    · rw [if_pos hak, lookup_cons_if, lookup_cons_if,
          if_neg hpk, if_neg (fun hpa => hpk (hpa.trans hak))]
      exact ih
    · rw [if_neg hak, lookup_cons_if, lookup_cons_if]
      by_cases hpa : p = a
      · rw [if_pos hpa, if_pos hpa]
      · rw [if_neg hpa, if_neg hpa, ih]

theorem lookup_update_self (k v : String) :
    ∀ m : List FileEntry, k ∈ m.map Prod.fst →
      List.lookup k (m.map (fun e => if e.1 == k then (k, v) else e)) = some v := by
  intro m
  induction m with
  | nil => simp
  | cons e m' ih =>
    intro hmem
    obtain ⟨a, b⟩ := e
    rw [update_cons]
    by_cases hak : a = k
    · rw [if_pos hak, lookup_cons_if, if_pos rfl]
    · rw [if_neg hak, lookup_cons_if, if_neg (fun h => hak h.symm)]
      apply ih
      simp only [List.map_cons, List.mem_cons] at hmem
      rcases hmem with h | h
      · exact absurd h.symm hak
      · exact h

theorem not_mem_keys_lookup (p : String) :
    ∀ m : List FileEntry, p ∉ m.map Prod.fst → List.lookup p m = none := by
  intro m
  induction m with
  | nil => intro _; rfl
  | cons e m' ih =>
    intro h
    obtain ⟨a, b⟩ := e
    simp only [List.map_cons, List.mem_cons] at h
    push_neg at h
    rw [lookup_cons_if, if_neg h.1]
    exact ih h.2

theorem lookup_append_right_none (p k v : String) :
    ∀ m : List FileEntry, List.lookup p m = none →
      List.lookup p (m ++ [(k, v)]) = if p = k then some v else none := by
  intro m
  induction m with
  | nil => intro _; simpa using lookup_cons_if p k v []
  | cons e m' ih =>
    intro h
    obtain ⟨a, b⟩ := e
    rw [lookup_cons_if] at h
    by_cases hpa : p = a
    · rw [if_pos hpa] at h
      exact absurd h (by simp)
    · rw [if_neg hpa] at h
      rw [List.cons_append, lookup_cons_if, if_neg hpa]
      exact ih h

theorem lookup_append_right_some (p w : String) (kv : FileEntry) :
    ∀ m : List FileEntry, List.lookup p m = some w →
      List.lookup p (m ++ [kv]) = some w := by
  intro m
  induction m with
  | nil => intro h; exact absurd h (by simp)
  | cons e m' ih =>
    intro h
    obtain ⟨a, b⟩ := e
    rw [lookup_cons_if] at h
    rw [List.cons_append, lookup_cons_if]
    by_cases hpa : p = a
    · rw [if_pos hpa] at h ⊢
      exact h
    · rw [if_neg hpa] at h ⊢
      exact ih h

theorem lookup_mapInsert (m : List FileEntry) (k v p : String) :
    List.lookup p (mapInsert m k v) =
      if p = k then some v else List.lookup p m := by
  unfold mapInsert
  split
  case isTrue hany =>
    have hk : k ∈ m.map Prod.fst := (any_beq_keys m k).mp hany
    by_cases hpk : p = k
    · subst hpk
      rw [if_pos rfl]
      exact lookup_update_self p v m hk
    · rw [if_neg hpk]
      exact lookup_update_ne k v p hpk m
  case isFalse hany =>
    have hk : k ∉ m.map Prod.fst := fun hmem =>
      hany ((any_beq_keys m k).mpr hmem)
    by_cases hpk : p = k
    · subst hpk
      rw [if_pos rfl, lookup_append_right_none p p v m
            (not_mem_keys_lookup p m hk), if_pos rfl]
    · rw [if_neg hpk]
      cases hm : List.lookup p m with
      | none => rw [lookup_append_right_none p k v m hm, if_neg hpk]
      | some w => rw [lookup_append_right_some p w (k, v) m hm]

theorem toMap_go_nodup (files : List FileEntry) :
    ∀ m : List FileEntry, (m.map Prod.fst).Nodup →
      ((files.foldl (fun acc e => mapInsert acc e.1 e.2) m).map Prod.fst).Nodup := by
  induction files with
  | nil => exact fun m h => h
  | cons e rest ih =>
    intro m h
    exact ih _ (nodup_keys_mapInsert m e.1 e.2 h)

theorem toMap_go_mem (p : String) (files : List FileEntry) :
    ∀ m : List FileEntry,
      (p ∈ (files.foldl (fun acc e => mapInsert acc e.1 e.2) m).map Prod.fst ↔
        p ∈ m.map Prod.fst ∨ p ∈ files.map Prod.fst) := by
  induction files with
  | nil => simp
  | cons e rest ih =>
    intro m
    simp only [List.foldl_cons, List.map_cons, List.mem_cons]
    rw [ih, mem_keys_mapInsert]
    tauto

theorem toMap_go_lookup (p : String) (files : List FileEntry) :
    ∀ m : List FileEntry,
      List.lookup p (files.foldl (fun acc e => mapInsert acc e.1 e.2) m) =
        files.foldl (fun acc e => if e.1 = p then some e.2 else acc)
          (List.lookup p m) := by
  induction files with
  | nil => exact fun m => rfl
  | cons e rest ih =>
    intro m
    simp only [List.foldl_cons]
    rw [ih, lookup_mapInsert]
    have harg : (if p = e.1 then some e.2 else List.lookup p m) =
        (if e.1 = p then some e.2 else List.lookup p m) := by
      by_cases h : p = e.1
      · rw [if_pos h, if_pos h.symm]
      · rw [if_neg h, if_neg (fun hh => h hh.symm)]
    rw [harg]

theorem charVal_sextetChar (v : Nat) (h : v < 64) : charVal (sextetChar v) = some v := by
  have hfin : ∀ w : Fin 64, charVal (sextetChar w.val) = some w.val := by decide
  exact hfin ⟨v, h⟩

theorem charVal_pad : charVal '=' = none := by decide

theorem charVal_lt (c : Char) (v : Nat) (h : charVal c = some v) : v < 64 := by
  unfold charVal at h
  split_ifs at h <;> simp_all <;> omega

theorem decodeChars_encodeBytes :
    ∀ B : List Nat, (∀ b ∈ B, b < 256) → decodeChars (encodeBytes B) = B
  | [], _ => rfl
  | [a], h => by
      have ha : a < 256 := h a (by simp)
      simp only [encodeBytes, decodeChars, List.filterMap_cons, List.filterMap_nil,
        charVal_sextetChar (a / 4) (by omega),
        charVal_sextetChar (a % 4 * 16) (by omega),
        charVal_pad]
      simp only [decodeQuads]
      have h1 : a / 4 * 4 + a % 4 * 16 / 16 = a := by omega
      rw [h1]
  | [a, b], h => by
      have ha : a < 256 := h a (by simp)
      have hb : b < 256 := h b (by simp)
      simp only [encodeBytes, decodeChars, List.filterMap_cons, List.filterMap_nil,
        charVal_sextetChar (a / 4) (by omega),
        charVal_sextetChar (a % 4 * 16 + b / 16) (by omega),
        charVal_sextetChar (b % 16 * 4) (by omega),
        charVal_pad]
      simp only [decodeQuads]
      have h1 : a / 4 * 4 + (a % 4 * 16 + b / 16) / 16 = a := by omega
      have h2 : (a % 4 * 16 + b / 16) % 16 * 16 + b % 16 * 4 / 4 = b := by omega
      rw [h1, h2]
  | a :: b :: c :: rest, h => by
      have ha : a < 256 := h a (by simp)
      have hb : b < 256 := h b (by simp)
      have hc : c < 256 := h c (by simp)
      have ih := decodeChars_encodeBytes rest (fun x hx => h x (by simp [hx]))
      rw [decodeChars] at ih
      simp only [encodeBytes, decodeChars, List.filterMap_cons,
        charVal_sextetChar (a / 4) (by omega),
        charVal_sextetChar (a % 4 * 16 + b / 16) (by omega),
        charVal_sextetChar (b % 16 * 4 + c / 64) (by omega),
        charVal_sextetChar (c % 64) (by omega)]
      simp only [decodeQuads]
      rw [ih]
      have h1 : a / 4 * 4 + (a % 4 * 16 + b / 16) / 16 = a := by omega
      have h2 : (a % 4 * 16 + b / 16) % 16 * 16 + (b % 16 * 4 + c / 64) / 4 = b := by
        omega
      have h3 : (b % 16 * 4 + c / 64) % 4 * 64 + c % 64 = c := by omega
      rw [h1, h2, h3]

theorem filterMap_eq_filterMap_filter {α β : Type} (f : α → Option β) (l : List α) :
    l.filterMap f = (l.filter (fun a => (f a).isSome)).filterMap f := by
  induction l with
  | nil => rfl
  | cons a t ih =>
    cases hfa : f a <;> simp [List.filterMap_cons, List.filter_cons, hfa, ← ih]

theorem decodeQuads_lt :
    ∀ L : List Nat, (∀ x ∈ L, x < 64) → ∀ b ∈ decodeQuads L, b < 256
  | [], _ => by simp [decodeQuads]
  | [s1], h => by simp [decodeQuads]
  | [s1, s2], h => by
      have h1 := h s1 (by simp)
      have h2 := h s2 (by simp)
      intro b hb
      simp only [decodeQuads, List.mem_singleton] at hb
      omega
  | [s1, s2, s3], h => by
      have h1 := h s1 (by simp)
      have h2 := h s2 (by simp)
      have h3 := h s3 (by simp)
      intro b hb
      simp only [decodeQuads, List.mem_cons, List.not_mem_nil, or_false] at hb
      rcases hb with hb | hb <;> omega
  | s1 :: s2 :: s3 :: s4 :: rest, h => by
      have h1 := h s1 (by simp)
      have h2 := h s2 (by simp)
      have h3 := h s3 (by simp)
      have h4 := h s4 (by simp)
      have ih := decodeQuads_lt rest (fun x hx => h x (by simp [hx]))
      intro b hb
      simp only [decodeQuads, List.mem_cons] at hb
      rcases hb with hb | hb | hb | hb
      · omega
      · omega
      · omega
      · exact ih b hb

theorem getLast?_tail_ne {a : Char} {rest : List Char}
    (h : (a :: rest).getLast? ≠ some '\\') (hne : rest ≠ []) :
    rest.getLast? ≠ some '\\' := by
  cases rest with
  | nil => simp
  | cons b t => simpa [List.getLast?_cons_cons] using h

theorem firstField_escape (l : List Char) (c : List Char)
    (h : l.getLast? ≠ some '\\') :
    firstField (escapeList l ++ ',' :: c) = escapeList l := by
  induction l with
  | nil => simpa [escapeList] using firstField_comma c
  | cons a rest ih =>
    by_cases ha : a = ','
    · subst ha
      have h' : rest.getLast? ≠ some '\\' := by
        cases hr : rest with
        | nil => simp
        | cons b t => exact hr ▸ getLast?_tail_ne h (by simp [hr])
      rw [escapeList_comma, List.cons_append, List.cons_append,
          firstField_bs_comma, ih h']
    · cases hE : escapeList rest with
      | nil =>
        have hrest : rest = [] := (escapeList_eq_nil_iff rest).mp hE
        have haBS : a ≠ '\\' := by
          subst hrest
          simpa using h
        subst hrest
        rw [escapeList_other a [] ha]
        simp only [escapeList, List.cons_append, List.nil_append]
        rw [firstField_two a ',' c (by simp [haBS]) ha, firstField_comma]
      | cons b t =>
        have hne : rest ≠ [] := by
          intro hr
          rw [hr] at hE
          exact absurd hE.symm (by simp [escapeList])
        have h' : rest.getLast? ≠ some '\\' := getLast?_tail_ne h hne
        have hb : b ≠ ',' := fun hb => escapeList_head_ne_comma rest t (hb ▸ hE)
        rw [escapeList_other a rest ha, List.cons_append, hE, List.cons_append,
            firstField_two a b (t ++ ',' :: c) (by simp [hb]) ha,
            ← List.cons_append, ← hE, ih h']

/-! ## Claim theorems -/

/-- C1: the claim says `asJSON()` parses to exactly the `toMap()` object, with
`\x7b"a.txt":"aGk=","b.txt":"eW8="\x7d` for the scenario-A snapshot.  The code
has `asJSON: () => JSON.stringify(files)` over the ENTRY ARRAY, so it produces
the JSON array `[["a.txt","aGk="],["b.txt","eW8="]]` and `[]` for the empty
snapshot, not the object text of `toMap()`; this contradicts the function
documentation of the source (a flat map of filepath to base64) and the sibling
driver that stringifies the reduced map. -/
theorem asJSON_is_array_not_map :
    asJSON [("a.txt", "aGk="), ("b.txt", "eW8=")] =
      "[[\"a.txt\",\"aGk=\"],[\"b.txt\",\"eW8=\"]]"
    ∧ jsonOfMap (toMap [("a.txt", "aGk="), ("b.txt", "eW8=")]) =
      "\x7b\"a.txt\":\"aGk=\",\"b.txt\":\"eW8=\"\x7d"
    ∧ asJSON [("a.txt", "aGk="), ("b.txt", "eW8=")] ≠
      jsonOfMap (toMap [("a.txt", "aGk="), ("b.txt", "eW8=")])
    ∧ asJSON [] = "[]" ∧ asJSON [] ≠ "\x7b\x7d" := by
  refine ⟨rfl, rfl, ?_, rfl, ?_⟩ <;> decide

/-- C2: the claim says the views are pure and leave the stored entries
unchanged.  The source `asCSV` assigns `entry[0] = entry[0].replace(/,/g, "\\,")`
into the shared entry tuples: after one call on a snapshot whose path holds a
comma, the stored path is the escaped one, and a second call escapes again and
returns a different CSV text. -/
theorem asCSV_mutates_store :
    (asCSVrun [("a,b.txt", "QQ==")]).2 = [("a\\,b.txt", "QQ==")]
    ∧ (asCSVrun [("a,b.txt", "QQ==")]).2 ≠ [("a,b.txt", "QQ==")]
    ∧ (asCSVrun ((asCSVrun [("a,b.txt", "QQ==")]).2)).1 ≠
      (asCSVrun [("a,b.txt", "QQ==")]).1 := by
  refine ⟨rfl, ?_, ?_⟩ <;> decide

/-- C3: the claim says a glob-expansion failure propagates an error carrying
the original cause.  The rejection handler is `throw wrapError(fileGlob)` --
it names the still-uninitialized `fileGlob` instead of `err` -- so whatever
the cause was, the propagated error is the constant produced by that line and
the cause is dropped. -/
theorem glob_failure_drops_cause (cause : JsError) :
    globFailurePropagated cause = globHandlerThrown
    ∧ globFailurePropagated cause = globFailurePropagated ⟨"ENOENT"⟩ :=
  ⟨rfl, rfl⟩

/-- C8: `asCSV()` is the header line `filepath,content` followed by one line
per entry of the form escapedPath,content, each preceded by a single newline
(so lines are newline-joined with no trailing newline); escaping replaces
every comma of the path by backslash-comma; the empty snapshot gives only the
header. -/
theorem asCSV_format (files : List FileEntry) :
    asCSV files =
      "filepath,content" ++
        strConcat (files.map (fun e => "\n" ++ (escapeStr e.1 ++ "," ++ e.2)))
    ∧ (∀ p : String, (escapeStr p).data =
        p.data.flatMap (fun c => if c = ',' then ['\\', ','] else [c]))
    ∧ asCSV [] = "filepath,content" := by
  refine ⟨?_, ?_, rfl⟩
  · simp only [asCSV, asCSVrun, List.map_map]
    rw [joinSep_cons]
    simp only [List.map_map, Function.comp_def]
  · intro p
    exact escapeList_flatMap p.data

/-- C4 counterexample: for the stored path consisting of the character a
followed by a single trailing backslash, the CSV row is a backslash comma
content, whose only comma is preceded by a backslash; splitting on unescaped
commas therefore never finds the separator and the path field does not decode
back to the original path.  This refutes the claim for paths that contain
backslashes at the end. -/
theorem csv_path_decode_cex :
    decodeCsvPath (csvRow ("a\\", "Qg==")) ≠ "a\\" := by decide

/-- C4 (amended): decoding the CSV row path field (splitting the row on
unescaped commas and replacing each escaped backslash-comma by a comma)
recovers the original stored path for every path that does not END with a
backslash -- backslashes elsewhere in the path are fine; a trailing backslash
makes the separator comma look escaped and breaks recovery. -/
theorem csv_path_decode_roundTrip (p c : String)
    (h : p.data.getLast? ≠ some '\\') :
    decodeCsvPath (csvRow (p, c)) = p := by
  have hdata : (csvRow (p, c)).data = escapeList p.data ++ ',' :: c.data := by
    simp [csvRow, escapeStr, String.data_append]
  rw [decodeCsvPath, hdata, firstField_escape p.data c.data h, unescape_escape]

/-- C4 witness: the amended round trip evaluated on the comma-and-backslash
path a backslash b comma c with base64 content. -/
theorem csv_path_decode_roundTrip_witness :
    ("a\\b,c" : String).data.getLast? ≠ some '\\'
    ∧ decodeCsvPath (csvRow ("a\\b,c", "QQ==")) = "a\\b,c" :=
  ⟨by decide, csv_path_decode_roundTrip "a\\b,c" "QQ==" (by decide)⟩

/-- C7: duplicate paths: `toMap()` has exactly one key per distinct path of
the snapshot (its key list has no duplicates and holds exactly the paths that
occur), the value at each path is the LAST matching entry's content (later
entries overwrite earlier ones), while `asCSV()` and `asTSV()` keep one body
row per entry of the underlying sequence, duplicates included. -/
theorem toMap_collapses_csv_keeps (files : List FileEntry) :
    ((toMap files).map Prod.fst).Nodup
    ∧ (∀ p, p ∈ (toMap files).map Prod.fst ↔ p ∈ files.map Prod.fst)
    ∧ (∀ p, List.lookup p (toMap files) = lastContent p files)
    ∧ asCSV files =
        joinSep "\n" ("filepath,content" ::
          files.map (fun e => escapeStr e.1 ++ "," ++ e.2))
    ∧ (files.map (fun e => escapeStr e.1 ++ "," ++ e.2)).length = files.length
    ∧ asTSV files =
        joinSep "\n" ("filepath\tcontent" ::
          files.map (fun e => e.1 ++ "\t" ++ e.2))
    ∧ (files.map (fun e => e.1 ++ "\t" ++ e.2)).length = files.length := by
  refine ⟨toMap_go_nodup files [] (by simp), fun p => ?_, fun p => ?_, ?_,
    by simp, rfl, by simp⟩
  · simpa using toMap_go_mem p files []
  · simpa [lastContent] using toMap_go_lookup p files []
  · simp only [asCSV, asCSVrun, List.map_map]
    rfl

/-- C5: base64 round trip: decoding the base64 encoding of any byte sequence
yields exactly that byte sequence, where the encoder is the base64 transform
of `Base64.encode` applied directly to bytes and the decoder is
`Base64.decode`. -/
theorem base64_roundTrip (B : List Nat) (h : ∀ b ∈ B, b < 256) :
    Base64.decode (Base64.encodeInline B) = B :=
  decodeChars_encodeBytes B h

/-- C5 witness: the round trip on the two bytes of the file content hi,
whose encoding is aGk=. -/
theorem base64_roundTrip_witness :
    (∀ b ∈ [104, 105], b < 256)
    ∧ Base64.decode (Base64.encodeInline [104, 105]) = [104, 105] :=
  ⟨by decide, base64_roundTrip [104, 105] (by decide)⟩

/-- C9 helper: the left-to-right filter fold equals one filter by the
conjunction of all predicates. -/
theorem applyFilters_eq (filters : List (String → Bool)) (paths : List String) :
    applyFilters filters paths =
      paths.filter (fun p => filters.all (fun f => f p)) := by
  induction filters generalizing paths with
  | nil => simp [applyFilters]
  | cons f fs ih =>
    simp only [applyFilters, List.foldl_cons] at *
    rw [ih (paths.filter f), List.filter_filter]
    refine List.filter_congr ?_
    intro p _
    simp [Bool.and_comm]

/-- C9 helper: `all` over a list of predicates is invariant under
permutation of the predicates. -/
theorem all_perm (l1 l2 : List (String → Bool)) (h : l1.Perm l2) (p : String) :
    l1.all (fun f => f p) = l2.all (fun f => f p) := by
  refine Bool.eq_iff_iff.mpr ?_
  simp only [List.all_eq_true]
  constructor
  · intro hall f hf
    exact hall f (h.mem_iff.mpr hf)
  · intro hall f hf
    exact hall f (h.mem_iff.mp hf)

/-- C9: applying the filter list as a left-to-right fold keeps exactly the
paths on which every predicate is true (logical AND), and a permutation of
the predicate list yields the same final path list. -/
theorem applyFilters_and_permInvariant (paths : List String)
    (filters filters2 : List (String → Bool)) (h : filters.Perm filters2) :
    applyFilters filters paths =
      paths.filter (fun p => filters.all (fun f => f p))
    ∧ applyFilters filters paths = applyFilters filters2 paths := by
  refine ⟨applyFilters_eq filters paths, ?_⟩
  rw [applyFilters_eq, applyFilters_eq]
  exact List.filter_congr (fun p _ => all_perm filters filters2 h p)

/-- C9 witness: two concrete predicates, swapped, on a concrete path list. -/
theorem applyFilters_and_permInvariant_witness :
    (([fun p => String.endsWith p ".txt", fun p => p.length == 5] :
        List (String → Bool)).Perm
      [fun p => p.length == 5, fun p => String.endsWith p ".txt"])
    ∧ (applyFilters
          [fun p => String.endsWith p ".txt", fun p => p.length == 5]
          ["a.txt", "b.md", "cc.txt"] =
        ["a.txt", "b.md", "cc.txt"].filter
          (fun p => ([fun p => String.endsWith p ".txt",
              fun p => p.length == 5] : List (String → Bool)).all
            (fun f => f p))
      ∧ applyFilters
          [fun p => String.endsWith p ".txt", fun p => p.length == 5]
          ["a.txt", "b.md", "cc.txt"] =
        applyFilters
          [fun p => p.length == 5, fun p => String.endsWith p ".txt"]
          ["a.txt", "b.md", "cc.txt"]) :=
  ⟨List.Perm.swap _ _ _,
    applyFilters_and_permInvariant ["a.txt", "b.md", "cc.txt"] _ _
      (List.Perm.swap _ _ _)⟩

/-- C10: `Base64.decode` is total by construction (every string maps to a
byte list, never an error branch); characters outside the base64 alphabet are
ignored, so decoding a string equals decoding its restriction to alphabet
characters, and every produced byte is below 256. -/
theorem decode_total (s : String) :
    Base64.decode s = decodeChars (s.data.filter (fun c => (charVal c).isSome))
    ∧ (Base64.decode s).all (fun b => decide (b < 256)) = true := by
  constructor
  · show decodeChars s.data = _
    rw [decodeChars, decodeChars, ← filterMap_eq_filterMap_filter]
  · rw [List.all_eq_true]
    intro b hb
    rw [decide_eq_true_eq]
    refine decodeQuads_lt (s.data.filterMap charVal) ?_ b hb
    intro x hx
    rcases List.mem_filterMap.mp hx with ⟨c, _, hc⟩
    exact charVal_lt c x hc

theorem runSchedule_cons (tasks : List (String × String)) (i : Nat)
    (sched : List Nat) (h : i < tasks.length) :
    runSchedule tasks (i :: sched) =
      (i, tasks[i]) :: runSchedule tasks sched := by
  simp [runSchedule, List.get?_eq_getElem?, List.getElem?_eq_getElem h]

theorem runSchedule_map_fst (tasks : List (String × String)) :
    ∀ sched : List Nat, (∀ i ∈ sched, i < tasks.length) →
      (runSchedule tasks sched).map Prod.fst = sched := by
  intro sched
  induction sched with
  | nil => intro _; rfl
  | cons i t ih =>
    intro hall
    rw [runSchedule_cons tasks i t (hall i (by simp))]
    simp only [List.map_cons]
    rw [ih (fun x hx => hall x (by simp [hx]))]

theorem mem_runSchedule (tasks : List (String × String)) (sched : List Nat)
    (j : Nat) (hj : j ∈ sched) (hlt : j < tasks.length) :
    (j, tasks[j]) ∈ runSchedule tasks sched := by
  unfold runSchedule
  refine List.mem_filterMap.mpr ⟨j, hj, ?_⟩
  simp [List.get?_eq_getElem?, List.getElem?_eq_getElem hlt]

theorem find?_key (j : Nat) (x : String × String) :
    ∀ l : List (Nat × (String × String)),
      (l.map Prod.fst).Nodup → (j, x) ∈ l →
      l.find? (fun c => c.1 == j) = some (j, x) := by
  intro l
  induction l with
  | nil => intro _ hmem; exact absurd hmem (by simp)
  | cons e t ih =>
    intro hnd hmem
    obtain ⟨a, y⟩ := e
    rw [List.map_cons, List.nodup_cons] at hnd
    by_cases haj : a = j
    · subst haj
      rcases List.mem_cons.mp hmem with hx | hx
      · rw [List.find?_cons_of_pos t (by simp)]
        rw [(Prod.mk.injEq _ _ _ _).mp hx.symm |>.2]
      · exact absurd (List.mem_map.mpr ⟨(a, x), hx, rfl⟩) hnd.1
    · rw [List.find?_cons_of_neg t (by simp [haj])]
      refine ih hnd.2 ?_
      rcases List.mem_cons.mp hmem with hx | hx
      · exact absurd ((Prod.mk.injEq _ _ _ _).mp hx.symm).1 haj
      · exact hx

/-- C6: for every path list, read oracle and settlement order of the
concurrent per-file reads (any permutation of the task indices), the snapshot
assembled by `Promise.all` equals the per-path results in path-enumeration
order: the output is independent of completion order. -/
theorem buildSnapshot_input_order (paths : List String)
    (read : String → String) (sched : List Nat)
    (h : sched.Perm (List.range paths.length)) :
    buildSnapshot paths read sched = (encodeTasks paths read).map some := by
  have hlen : (encodeTasks paths read).length = paths.length :=
    List.length_map _ _
  have hall : ∀ i ∈ sched, i < (encodeTasks paths read).length := by
    intro i hi
    rw [hlen]
    exact List.mem_range.mp (h.mem_iff.mp hi)
  have hnd : sched.Nodup := h.nodup_iff.mpr (List.nodup_range _)
  have hkeys :
      ((runSchedule (encodeTasks paths read) sched).map Prod.fst).Nodup := by
    rw [runSchedule_map_fst _ sched hall]
    exact hnd
  unfold buildSnapshot promiseAll
  apply List.ext_getElem
  · simp
  · intro i h1 h2
    have hi : i < (encodeTasks paths read).length := by
      simpa using h2
    have hisched : i ∈ sched := by
      refine h.mem_iff.mpr (List.mem_range.mpr ?_)
      rw [← hlen]
      exact hi
    simp only [List.getElem_map, List.getElem_range]
    rw [find?_key i ((encodeTasks paths read)[i]) _ hkeys
        (mem_runSchedule _ sched i hisched hi)]
    rfl

/-- C6 witness: two paths whose reads settle in reversed order still yield
the snapshot in path order. -/
theorem buildSnapshot_input_order_witness :
    ([1, 0] : List Nat).Perm
      (List.range (["a.txt", "b.txt"] : List String).length)
    ∧ buildSnapshot ["a.txt", "b.txt"] (fun p => p ++ "64") [1, 0] =
        (encodeTasks ["a.txt", "b.txt"] (fun p => p ++ "64")).map some :=
  ⟨by decide, buildSnapshot_input_order ["a.txt", "b.txt"] _ [1, 0] (by decide)⟩
